import Mathlib

/-!
# BotCrypto ingestion core: a shallow embedding with proofs

This file embeds the core data-acquisition components of the BotCrypto
repository in Lean and proves properties of them:

* `DatasetWriter` — the idempotent JSONL upsert store of
  `src/app/binance_backfill.py`;
* the four backfill loops of `BinanceBackfillJob` (same module);
* `ExponentialBackoff`, `RateLimiter`, the REST retry helpers `_get` of the
  synchronous (`BinanceRESTClient`) and asynchronous
  (`BinanceFuturesRESTClient`) clients, the WebSocket trade decoder
  `BinanceAggTradeWebSocket._decode_trade`, and the candle polling loop of
  `BinanceFuturesIngestionService` (`src/app/binance_futures_ingest.py`).

Modelling conventions: Python ints are `Int`/`Nat`; Python floats that only
ever undergo exact arithmetic in the properties considered (backoff delays,
rate-limiter timestamps, poll intervals) are modelled as `ℚ`; Python dicts
are insertion-ordered association lists; fallible operations return `Option`
or a dedicated result type; I/O effects (HTTP responses, the monotonic
clock, sleeps) are supplied as explicit oracle functions.
-/

set_option linter.unusedSectionVars false

namespace BotCrypto

/-! ## DatasetWriter (src/app/binance_backfill.py, class DatasetWriter)

The writer holds a dict from the *stringified* natural key to the full
record (`self._records`), the running maximum numeric key (`self._max_key`),
a dirty flag, and the persisted target file.  Records are modelled
generically: a type `R` with decidable equality, a key function `kf` giving
the integer natural-key field (`record[self.key_field]`, an epoch-ms or id
integer for all four data kinds), and an encoder `enc` standing for
`json.dumps(record, sort_keys=True)`.  Python dicts preserve insertion
order, `str` is injective on ints and `_safe_int (str k) = k`, which the
model uses for the max-key bookkeeping. -/

/-- `UpsertStats` of src/app/binance_backfill.py. -/
structure UpsertStats where
  inserted : Nat := 0
  updated : Nat := 0
  unchanged : Nat := 0
  deriving DecidableEq, Repr

/-- `UpsertStats.total`. -/
def UpsertStats.total (s : UpsertStats) : Nat :=
  s.inserted + s.updated + s.unchanged

/-- State of a `DatasetWriter`: the in-memory record map, the running max
numeric key, the dirty flag, and the content of the persisted target file
(`none` when the file does not exist yet). -/
structure DatasetWriter (R : Type) where
  records : List (String × R)
  maxKey : Option Int
  dirty : Bool
  file : Option String
  deriving DecidableEq

namespace DatasetWriter

variable {R : Type} [DecidableEq R]

/-- Python dict update `self._records[key] = value`: replaces the value in
place when the key is present, appends at the end otherwise (Python dicts
keep insertion order). -/
def setRecord : List (String × R) → String → R → List (String × R)
  | [], key, r => [(key, r)]
  | (k, v) :: rest, key, r =>
    if k = key then (k, r) :: rest else (k, v) :: setRecord rest key r

/-- The `_max_key` update of `upsert_many`: keys are `str(k)` for an integer
`k`, so `_safe_int` always recovers `k` and the branch
`if self._max_key is None or numeric_key > self._max_key` is a max. -/
def updateMax (m : Option Int) (k : Int) : Option Int :=
  match m with
  | none => some k
  | some v => if k > v then some k else some v

/-- One iteration of the `for record in records` loop of
`DatasetWriter.upsert_many`. -/
def upsertOne (kf : R → Int) (st : DatasetWriter R × UpsertStats) (record : R) :
    DatasetWriter R × UpsertStats :=
  let w := st.1
  let stats := st.2
  let key := toString (kf record)
  match w.records.lookup key with
  | some existing =>
    if existing = record then
      (w, { stats with unchanged := stats.unchanged + 1 })
    else
      ({ w with records := setRecord w.records key record,
                maxKey := updateMax w.maxKey (kf record), dirty := true },
       { stats with updated := stats.updated + 1 })
  | none =>
      ({ w with records := setRecord w.records key record,
                maxKey := updateMax w.maxKey (kf record), dirty := true },
       { stats with inserted := stats.inserted + 1 })

/-- `DatasetWriter.upsert_many`. -/
def upsertMany (kf : R → Int) (w : DatasetWriter R) (records : List R) :
    DatasetWriter R × UpsertStats :=
  records.foldl (upsertOne kf) (w, {})

/-- `sorted(self._records.values(), key=lambda entry: entry[self.key_field])`:
Python `sorted` is the stable ascending sort, modelled by the stable
insertion sort on the key field. -/
def sortedRecords (kf : R → Int) (w : DatasetWriter R) : List R :=
  (w.records.map Prod.snd).insertionSort (fun a b => kf a ≤ kf b)

/-- The serialized file content produced by the write loop of
`DatasetWriter.flush`: one `json.dumps` line per record, sorted by key. -/
def serialize (kf : R → Int) (enc : R → String) (w : DatasetWriter R) : String :=
  String.join ((sortedRecords kf w).map (fun r => enc r ++ "\n"))

/-- `DatasetWriter.flush`: a no-op unless dirty; otherwise the full sorted
serialization is written to `<target>.tmp` and `tmp_path.replace(self._path)`
installs it over the target in one atomic rename, modelled as a single
assignment of the file content; the dirty flag is then cleared. -/
def flush (kf : R → Int) (enc : R → String) (w : DatasetWriter R) :
    DatasetWriter R :=
  if w.dirty then
    { w with file := some (serialize kf enc w), dirty := false }
  else
    w

end DatasetWriter

/-- A concrete empty writer over integer records (key = the record itself),
used only to instantiate hypotheses of theorems below. -/
def sampleWriter : DatasetWriter Int := ⟨[], none, false, none⟩

/-! ## ExponentialBackoff (src/app/binance_futures_ingest.py)

Delays are Python floats; the properties considered only involve exact
arithmetic (products of the initial delay with powers of the factor, min
with the cap), so they are modelled as exact rationals. -/

/-- State of an `ExponentialBackoff` instance. -/
structure ExponentialBackoff where
  initial : ℚ
  factor : ℚ
  maximum : ℚ
  attempts : ℕ
  deriving DecidableEq, Repr

namespace ExponentialBackoff

/-- The validating `__init__`: raises `ValueError` (`none`) on
`initial <= 0`, `factor < 1` or `maximum < initial`, otherwise starts with
a zero attempt counter. -/
def make (initial factor maximum : ℚ) : Option ExponentialBackoff :=
  if initial ≤ 0 then none
  else if factor < 1 then none
  else if maximum < initial then none
  else some ⟨initial, factor, maximum, 0⟩

/-- `next_delay`: returns `min(initial * factor ** attempts, maximum)` and
increments the attempt counter. -/
def nextDelay (b : ExponentialBackoff) : ℚ × ExponentialBackoff :=
  (min (b.initial * b.factor ^ b.attempts) b.maximum,
   { b with attempts := b.attempts + 1 })

/-- `reset`: zeroes the attempt counter. -/
def reset (b : ExponentialBackoff) : ExponentialBackoff :=
  { b with attempts := 0 }

/-- The state after `k` calls to `next_delay`. -/
def stepN (b : ExponentialBackoff) : ℕ → ExponentialBackoff
  | 0 => b
  | k + 1 => (stepN b k).nextDelay.2

/-- The delay returned by the k-th call to `next_delay` (k counted from
0) after the state `b`. -/
def delayAt (b : ExponentialBackoff) (k : ℕ) : ℚ :=
  (stepN b k).nextDelay.1

end ExponentialBackoff

/-! ## RateLimiter (src/app/binance_futures_ingest.py)

Timestamps come from a monotonic clock, a Python float; they are modelled
as exact rationals.  `acquire` holds a lock around each attempt, so one
attempt body is modelled as a pure function of the limiter state and the
current clock value. -/

/-- Result of one body of the `while True` loop of `RateLimiter.acquire`
(one attempt under the lock): the request is granted and the timestamp
window extended, or the caller must sleep for `wait` and retry;
`indexError` is the uncaught `IndexError` raised by `self._events[0]` when
the trimmed window is empty. -/
inductive AcquireAttempt
  | granted (events : List ℚ)
  | wait (time : ℚ)
  | indexError
  deriving DecidableEq, Repr

/-- State of a `RateLimiter`: its configured capacity and interval and the
deque of granted-request timestamps (oldest first). -/
structure RateLimiter where
  capacity : ℕ
  interval : ℚ
  events : List ℚ
  deriving DecidableEq, Repr

namespace RateLimiter

/-- `_trim`: pop timestamps `t` with `now - t >= interval` from the front
of the deque. -/
def trim (interval now : ℚ) : List ℚ → List ℚ
  | [] => []
  | t :: rest => if now - t ≥ interval then trim interval now rest else t :: rest

/-- One attempt of `acquire(weight)` at clock value `now`: trim, then
either grant (recording `weight` copies of `now`) when
`len(events) + weight <= capacity`, or compute
`wait = max(0, interval - (now - events[0]))`. -/
def attempt (rl : RateLimiter) (now : ℚ) (weight : ℕ) : AcquireAttempt :=
  let evs := trim rl.interval now rl.events
  if evs.length + weight ≤ rl.capacity then
    .granted (evs ++ List.replicate weight now)
  else
    match evs with
    | [] => .indexError
    | t :: _ => .wait (max 0 (rl.interval - (now - t)))

/-- `acquire` run to completion under the test double where `sleep d`
advances the clock by `d` (the `_FakeClock` of the repository's tests):
returns the final limiter, the final clock value and the list of sleeps
performed, or `none` on fuel exhaustion or an `IndexError`. -/
def acquireRun : ℕ → RateLimiter → ℚ → ℕ → List ℚ →
    Option (RateLimiter × ℚ × List ℚ)
  | 0, _, _, _, _ => none
  | fuel + 1, rl, now, weight, sleeps =>
    match attempt rl now weight with
    | .granted evs => some ({ rl with events := evs }, now, sleeps)
    | .wait t => acquireRun fuel rl (now + t) weight (sleeps ++ [t])
    | .indexError => none

end RateLimiter

/-! ## REST retry logic

`BinanceRESTClient._get` (src/app/binance_backfill.py) and
`BinanceFuturesRESTClient._get` (src/app/binance_futures_ingest.py) share
one retry loop shape and differ in the set of HTTP statuses they retry,
so both are embedded as instances of `restGetLoop`.  The network is an
oracle `outs` giving the outcome observed by each attempt (0-based). -/

/-- Outcome of one HTTP GET attempt as seen by `_get`: a decoded body, an
`httpx.HTTPStatusError` carrying its status code, or another
`httpx.HTTPError` transport failure. -/
inductive Outcome (V : Type)
  | success (v : V)
  | httpStatus (code : ℕ)
  | transport
  deriving DecidableEq, Repr

/-- Result of `_get`: the decoded body, or the wrapping REST error
(`BinanceAPIError` for the synchronous client, `BinanceRESTError` for the
asynchronous one) carrying the last underlying failure.  The type has no
constructor for a bare HTTP exception: every path of `_get` either
returns a body or wraps the failure. -/
inductive GetResult (V : Type)
  | ok (v : V)
  | restError (last : Outcome V)
  deriving DecidableEq, Repr

/-- The statuses retried by the synchronous `BinanceRESTClient._get`:
`status in {418, 429, 504}`. -/
def syncRetryStatuses : List ℕ := [418, 429, 504]

/-- The default `retry_statuses` of the asynchronous
`BinanceFuturesRESTClient`: `(418, 429, 500, 502, 503, 504)`. -/
def asyncRetryStatuses : List ℕ := [418, 429, 500, 502, 503, 504]

/-- The retry loop of `_get`, starting at 0-based attempt index `attempt`
with `rest` further attempts allowed after the current one (`rest = 0`
means this is the final attempt, on which any failure raises the REST
error wrapping it).  A retryable status or any transport failure sleeps
the backoff delay and retries; a non-retryable status raises at once.
Returns the result together with the total number of attempts made. -/
def restGetLoop (outs : ℕ → Outcome V) (retry : List ℕ) :
    ℕ → ℕ → GetResult V × ℕ
  | attempt, 0 =>
    match outs attempt with
    | .success v => (.ok v, attempt + 1)
    | .httpStatus c => (.restError (.httpStatus c), attempt + 1)
    | .transport => (.restError .transport, attempt + 1)
  | attempt, rest + 1 =>
    match outs attempt with
    | .success v => (.ok v, attempt + 1)
    | .httpStatus c =>
      if c ∈ retry then restGetLoop outs retry (attempt + 1) rest
      else (.restError (.httpStatus c), attempt + 1)
    | .transport => restGetLoop outs retry (attempt + 1) rest

/-- `BinanceRESTClient._get` with `self._max_retries = max(1, max_retries)`
attempts in total. -/
def syncGet (outs : ℕ → Outcome V) (maxRetries : ℕ) : GetResult V × ℕ :=
  restGetLoop outs syncRetryStatuses 0 (max 1 maxRetries - 1)

/-- `BinanceFuturesRESTClient._get` under the default `retry_statuses`,
with `self._max_retries = max(1, max_retries)` attempts in total. -/
def asyncGet (outs : ℕ → Outcome V) (maxRetries : ℕ) : GetResult V × ℕ :=
  restGetLoop outs asyncRetryStatuses 0 (max 1 maxRetries - 1)

/-- The oracle of the C7 counterexample: the first attempt observes HTTP
status 500, every later attempt would succeed. -/
def outs500 : ℕ → Outcome ℕ :=
  fun i => if i = 0 then .httpStatus 500 else .success 7

/-! ## WebSocket trade decoding (BinanceAggTradeWebSocket._decode_trade)

The decoder receives a WebSocket frame; only the `json.loads` failures
(`UnicodeDecodeError`, `json.JSONDecodeError`) are inside its try block,
while the `int()`/`float()` field conversions are outside it. -/

/-- A JSON-decoded Python value as produced by `json.loads`: `None`, a
bool, an int, a float (exact), a string, a list or a dict. -/
inductive PyVal
  | pynone
  | pybool (b : Bool)
  | pyint (n : Int)
  | pyfloat (q : ℚ)
  | pystr (s : String)
  | pylist (items : List PyVal)
  | pydict (entries : List (String × PyVal))

namespace PyVal

/-- Truncation toward zero: the behaviour of Python `int()` on a float. -/
def ratTrunc (q : ℚ) : Int := if 0 ≤ q then ⌊q⌋ else -⌊-q⌋

/-- Python `float(str)` on plain decimal literals `[-]digits[.digits]`
(the format Binance emits for price/quantity fields). -/
def parseDecimal (s : String) : Option ℚ :=
  let core : String → Option ℚ := fun t =>
    match t.split (fun c => c = '.') with
    | [a] => (a.toNat?).map (fun n => (n : ℚ))
    | [a, b] =>
      match a.toNat?, b.toNat? with
      | some n, some frac => some ((n : ℚ) + (frac : ℚ) / (10 : ℚ) ^ b.length)
      | _, _ => Option.none
    | _ => Option.none
  if s.startsWith "-" then (core (s.drop 1)).map Neg.neg else core s

/-- Python `int(v)` on a JSON-decoded value; `none` models the
`TypeError`/`ValueError` raised on `None`, lists, dicts and
non-integer-literal strings. -/
def pyToInt : PyVal → Option Int
  | .pyint n => some n
  | .pyfloat q => some (ratTrunc q)
  | .pybool b => some (if b then 1 else 0)
  | .pystr s => s.toInt?
  | _ => Option.none

/-- Python `float(v)`; `none` models the raised conversion error. -/
def pyToFloat : PyVal → Option ℚ
  | .pyint n => some (n : ℚ)
  | .pyfloat q => some q
  | .pybool b => some (if b then 1 else 0)
  | .pystr s => parseDecimal s
  | _ => Option.none

/-- Python `bool(v)`: total, never raises. -/
def pyToBool : PyVal → Bool
  | .pynone => false
  | .pybool b => b
  | .pyint n => decide (n ≠ 0)
  | .pyfloat q => decide (q ≠ 0)
  | .pystr s => decide (s ≠ "")
  | .pylist items => !items.isEmpty
  | .pydict entries => !entries.isEmpty

/-- Whether the value is a `Mapping`. -/
def isDict : PyVal → Bool
  | .pydict _ => true
  | _ => false

end PyVal

/-- `AggTrade` of src/app/binance_futures_types.py, with the float fields
as exact rationals. -/
structure AggTrade where
  symbol : String
  agg_trade_id : Int
  price : ℚ
  quantity : ℚ
  first_trade_id : Int
  last_trade_id : Int
  timestamp : Int
  is_buyer_maker : Bool
  deriving DecidableEq, Repr

/-- An incoming WebSocket message after the `json.loads` stage:
`malformed` stands for input raising `UnicodeDecodeError` or
`json.JSONDecodeError`, `parsed v` for a successful parse. -/
inductive WsMessage
  | malformed
  | parsed (v : PyVal)

/-- Result of `_decode_trade`: a decoded trade, `skipped` for a returned
`None`, or `raised` for an uncaught exception escaping the method. -/
inductive DecodeResult
  | trade (t : AggTrade)
  | skipped
  | raised
  deriving DecidableEq, Repr

/-- `required_keys = {"a", "p", "q", "f", "l", "T", "m"}`. -/
def requiredKeys : List String := ["a", "p", "q", "f", "l", "T", "m"]

/-- The required-keys check and field conversions of `_decode_trade` for
a payload that is a mapping with the given entries. -/
def decodeEntries (symbol : String) (entries : List (String × PyVal)) :
    DecodeResult :=
  if requiredKeys.all (fun k => (entries.lookup k).isSome) then
    match PyVal.pyToInt ((entries.lookup "a").getD .pynone),
        PyVal.pyToFloat ((entries.lookup "p").getD .pynone),
        PyVal.pyToFloat ((entries.lookup "q").getD .pynone),
        PyVal.pyToInt ((entries.lookup "f").getD .pynone),
        PyVal.pyToInt ((entries.lookup "l").getD .pynone),
        PyVal.pyToInt ((entries.lookup "T").getD .pynone) with
    | some a, some p, some q, some f, some l, some T =>
      .trade ⟨symbol.toUpper, a, p, q, f, l, T,
        PyVal.pyToBool ((entries.lookup "m").getD .pynone)⟩
    | _, _, _, _, _, _ => .raised
  else .skipped

/-- The part of `_decode_trade` after envelope unwrapping: the mapping
check (`isinstance(payload, Mapping)`), then `decodeEntries`. -/
def decodePayload (symbol : String) : PyVal → DecodeResult
  | .pydict entries => decodeEntries symbol entries
  | _ => .skipped

/-- `BinanceAggTradeWebSocket._decode_trade`: parse, unwrap a
`{"data": {...}}` envelope when the payload is a mapping holding a
`"data"` key, then decode the payload. -/
def decodeTrade (symbol : String) : WsMessage → DecodeResult
  | .malformed => .skipped
  | .parsed (.pydict entries) =>
    (match entries.lookup "data" with
     | some v => decodePayload symbol v
     | Option.none => decodePayload symbol (.pydict entries))
  | .parsed v => decodePayload symbol v

/-- Entries of the C8 counterexample message: a valid JSON mapping with
every required key present but `"a"` bound to `null`. -/
def nullFieldEntries : List (String × PyVal) :=
  [("a", .pynone), ("p", .pyint 1), ("q", .pyint 1), ("f", .pyint 1),
   ("l", .pyint 1), ("T", .pyint 1), ("m", .pybool true)]

/-- Entries of a well-formed trade message with integer field values. -/
def simpleTradeEntries : List (String × PyVal) :=
  [("a", .pyint 1), ("p", .pyint 2), ("q", .pyint 3), ("f", .pyint 4),
   ("l", .pyint 5), ("T", .pyint 6), ("m", .pybool true)]

/-! ## Candle polling cadence (BinanceFuturesIngestionService) -/

/-- `_ingest_candles_once`: the `startTime` passed to `fetch_klines` is
the latest stored open_time plus one, or absent when the store is empty;
the poll ingests (returns True) iff the normalized batch is non-empty.
`fetch` is the oracle for `fetch_klines` composed with
`Candle.from_rest`. -/
def ingestCandlesOnce {γ : Type} (latest : Option Int)
    (fetch : Option Int → List γ) : Option Int × Bool :=
  let start := latest.map (· + 1)
  (start, !(fetch start).isEmpty)

/-- One exception-free iteration of `_candles_loop`: on ingestion reset
the backoff and wait `candle_poll_interval`; otherwise keep the backoff
and wait `max(5.0, candle_poll_interval / 2)`. -/
def candlesLoopBody (b : ExponentialBackoff) (pollInterval : ℚ)
    (ingested : Bool) : ExponentialBackoff × ℚ :=
  if ingested then (b.reset, pollInterval)
  else (b, max 5 (pollInterval / 2))

/-! ## BinanceBackfillJob loops (src/app/binance_backfill.py)

Each `_run_*` method drives an integer epoch-ms cursor over the
configured `[startMs, endMs]` window against a fetch oracle, upserting
filtered batches into a `DatasetWriter` and flushing after each batch.
The fetch oracles model the REST call composed with the per-kind
`_transform_*` normalizer; the `DataTypeReport`/metrics bookkeeping is
omitted (no claim concerns it).  Each loop is a step function — `.done`
for the `break` paths, `.next` for `continue` with the new cursor —
iterated by a fuel-indexed runner whose `while cursor <= endMs` test is
checked before consuming fuel; the C4 theorem shows a fuel of
`endMs + 2 - cursor` always suffices, so the fuel is not a semantic
restriction. -/

/-- Outcome of one loop iteration: loop exit or continuation with the new
cursor. -/
inductive LoopStep (σ : Type)
  | done (s : σ)
  | next (s : σ) (cursor : Int)
  deriving DecidableEq

/-- State threaded through `_run_candles`: the writer plus the trace of
`startTime` values passed to `fetch_klines`, in request order. -/
structure CandleRunState (R : Type) where
  writer : DatasetWriter R
  requests : List Int
  deriving DecidableEq

/-- One iteration of the while-loop of `_run_candles` (entered only with
`cursor <= endMs`): fetch with `startTime = cursor`, break on an empty
batch, filter to `cursor <= open_time <= endMs`, continue one interval
ahead on an empty filtered batch, otherwise upsert, flush and advance
past the last record's open_time, breaking when the new cursor leaves the
window. -/
def runCandlesBody {R : Type} [DecidableEq R] (kf : R → Int)
    (enc : R → String) (fetch : Int → List R) (intervalMs endMs : Int)
    (s : CandleRunState R) (cursor : Int) : LoopStep (CandleRunState R) :=
  let batch := fetch cursor
  let s' : CandleRunState R := { s with requests := s.requests ++ [cursor] }
  if batch.isEmpty then .done s'
  else
    match batch.filter
        (fun r => decide (cursor ≤ kf r) && decide (kf r ≤ endMs)) with
    | [] => .next s' (cursor + intervalMs)
    | r :: rest =>
      let w' := DatasetWriter.flush kf enc
        (DatasetWriter.upsertMany kf s'.writer (r :: rest)).1
      let cursor' := kf ((r :: rest).getLast (by simp)) + intervalMs
      let s'' : CandleRunState R := { writer := w', requests := s'.requests }
      if cursor' > endMs then .done s'' else .next s'' cursor'

/-- The `while cursor <= end_ms` loop of `_run_candles`, with the
trailing `writer.flush()` applied on every exit path. -/
def runCandlesLoop {R : Type} [DecidableEq R] (kf : R → Int)
    (enc : R → String) (fetch : Int → List R) (intervalMs endMs : Int) :
    ℕ → CandleRunState R → Int → Option (CandleRunState R)
  | fuel, s, cursor =>
    if cursor ≤ endMs then
      match fuel with
      | 0 => Option.none
      | fuel + 1 =>
        match runCandlesBody kf enc fetch intervalMs endMs s cursor with
        | .done s' =>
          some { s' with writer := DatasetWriter.flush kf enc s'.writer }
        | .next s' c' => runCandlesLoop kf enc fetch intervalMs endMs fuel s' c'
    else some { s with writer := DatasetWriter.flush kf enc s.writer }

/-- `_run_candles`: the resume clamp
(`start_ms = max(start_ms, writer.highest_key + 1)` when resuming over
existing data) followed by the fetch loop. -/
def runCandles {R : Type} [DecidableEq R] (kf : R → Int) (enc : R → String)
    (fetch : Int → List R) (intervalMs startMs endMs : Int)
    (w : DatasetWriter R) (resume : Bool) (fuel : ℕ) :
    Option (CandleRunState R) :=
  let start :=
    match resume, w.maxKey with
    | true, some k => max startMs (k + 1)
    | _, _ => startMs
  runCandlesLoop kf enc fetch intervalMs endMs fuel ⟨w, []⟩ start

/-- The hard-coded one-hour window slice of `_run_trades`
(`window_ms = 60 * 60 * 1000`). -/
def tradeWindowMs : Int := 60 * 60 * 1000

/-- State threaded through `_run_trades`: the writer and the `from_id`
continuation cursor. -/
structure TradeRunState (R : Type) where
  writer : DatasetWriter R
  fromId : Option Int
  deriving DecidableEq

/-- One iteration of the while-loop of `_run_trades` (entered only with
`cursor <= endMs`; `kfKey` reads `agg_id`, `kfTime` reads `timestamp`;
`fetch cursor targetEnd fromId` models `fetch_agg_trades` followed by
`_transform_trade`): an empty batch or an empty filtered batch continues
past the window's end, otherwise the batch is upserted and flushed,
`from_id` is cleared, and the cursor moves past the last record's
timestamp. -/
def runTradesBody {R : Type} [DecidableEq R] (kfKey kfTime : R → Int)
    (enc : R → String) (fetch : Int → Int → Option Int → List R)
    (endMs : Int) (s : TradeRunState R) (cursor : Int) :
    LoopStep (TradeRunState R) :=
  let targetEnd := min (cursor + tradeWindowMs) endMs
  let batch := fetch cursor targetEnd s.fromId
  if batch.isEmpty then .next s (targetEnd + 1)
  else
    match batch.filter
        (fun r => decide (cursor ≤ kfTime r) && decide (kfTime r ≤ endMs)) with
    | [] => .next s (targetEnd + 1)
    | r :: rest =>
      let w' := DatasetWriter.flush kfKey enc
        (DatasetWriter.upsertMany kfKey s.writer (r :: rest)).1
      let cursor' := kfTime ((r :: rest).getLast (by simp)) + 1
      let s' : TradeRunState R := ⟨w', Option.none⟩
      if cursor' > endMs then .done s' else .next s' cursor'

/-- The `while cursor <= end_ms` loop of `_run_trades`, with the trailing
`writer.flush()` on every exit path. -/
def runTradesLoop {R : Type} [DecidableEq R] (kfKey kfTime : R → Int)
    (enc : R → String) (fetch : Int → Int → Option Int → List R)
    (endMs : Int) : ℕ → TradeRunState R → Int → Option (TradeRunState R)
  | fuel, s, cursor =>
    if cursor ≤ endMs then
      match fuel with
      | 0 => Option.none
      | fuel + 1 =>
        match runTradesBody kfKey kfTime enc fetch endMs s cursor with
        | .done s' =>
          some { s' with writer := DatasetWriter.flush kfKey enc s'.writer }
        | .next s' c' => runTradesLoop kfKey kfTime enc fetch endMs fuel s' c'
    else some { s with writer := DatasetWriter.flush kfKey enc s.writer }

/-- One iteration of the while-loops of `_run_open_interest` (with
`adv = periodMs`, `windowMs = periodMs * limit`) and `_run_funding` (with
`adv = 1`, `windowMs = 8h * limit`): both slice `[cursor, min(cursor +
windowMs, endMs)]`, filter by the key field, continue `adv` past the
window's end on an empty (or emptied) batch, and otherwise upsert, flush
and advance `adv` past the last record's key. -/
def runWindowedBody {R : Type} [DecidableEq R] (kf : R → Int)
    (enc : R → String) (fetch : Int → Int → List R)
    (windowMs adv endMs : Int) (w : DatasetWriter R) (cursor : Int) :
    LoopStep (DatasetWriter R) :=
  let targetEnd := min (cursor + windowMs) endMs
  let batch := fetch cursor targetEnd
  if batch.isEmpty then .next w (targetEnd + adv)
  else
    match batch.filter
        (fun r => decide (cursor ≤ kf r) && decide (kf r ≤ endMs)) with
    | [] => .next w (targetEnd + adv)
    | r :: rest =>
      let w' := DatasetWriter.flush kf enc
        (DatasetWriter.upsertMany kf w (r :: rest)).1
      let cursor' := kf ((r :: rest).getLast (by simp)) + adv
      if cursor' > endMs then .done w' else .next w' cursor'

/-- The shared `while cursor <= end_ms` loop of `_run_open_interest` and
`_run_funding`. -/
def runWindowedLoop {R : Type} [DecidableEq R] (kf : R → Int)
    (enc : R → String) (fetch : Int → Int → List R)
    (windowMs adv endMs : Int) :
    ℕ → DatasetWriter R → Int → Option (DatasetWriter R)
  | fuel, w, cursor =>
    if cursor ≤ endMs then
      match fuel with
      | 0 => Option.none
      | fuel + 1 =>
        match runWindowedBody kf enc fetch windowMs adv endMs w cursor with
        | .done w' => some (DatasetWriter.flush kf enc w')
        | .next w' c' =>
          runWindowedLoop kf enc fetch windowMs adv endMs fuel w' c'
    else some (DatasetWriter.flush kf enc w)

/-- `_run_open_interest`: resume clamp, then the windowed loop with
`window_ms = period_ms * open_interest_limit` and per-period advance. -/
def runOpenInterest {R : Type} [DecidableEq R] (kf : R → Int)
    (enc : R → String) (fetch : Int → Int → List R)
    (periodMs startMs endMs limit : Int) (w : DatasetWriter R)
    (resume : Bool) (fuel : ℕ) : Option (DatasetWriter R) :=
  let start :=
    match resume, w.maxKey with
    | true, some k => max startMs (k + 1)
    | _, _ => startMs
  runWindowedLoop kf enc fetch (periodMs * limit) periodMs endMs fuel w start

/-- `_run_funding`: resume clamp, then the windowed loop with
`window_ms = 8 * 60 * 60 * 1000 * funding_limit` and advance 1. -/
def runFunding {R : Type} [DecidableEq R] (kf : R → Int)
    (enc : R → String) (fetch : Int → Int → List R)
    (startMs endMs limit : Int) (w : DatasetWriter R) (resume : Bool)
    (fuel : ℕ) : Option (DatasetWriter R) :=
  let start :=
    match resume, w.maxKey with
    | true, some k => max startMs (k + 1)
    | _, _ => startMs
  runWindowedLoop kf enc fetch (8 * 60 * 60 * 1000 * limit) 1 endMs fuel w start

/-- A concrete writer already holding the key 0, used to instantiate the
resumed-backfill witness. -/
def resumeWriter : DatasetWriter Int := ⟨[("0", 0)], some 0, false, Option.none⟩

/-- The run state produced by a resumed candle backfill over
`resumeWriter` against a fetch oracle that returns nothing. -/
def resumeOut : CandleRunState Int := ⟨resumeWriter, [1]⟩

/-- A concrete dirty writer used to instantiate the C2 witness. -/
def dirtySampleWriter : DatasetWriter Int :=
  ⟨[("4", 4), ("2", 2)], some 4, true, none⟩

namespace DatasetWriter

variable {R : Type} [DecidableEq R]

/-! ### Lemmas about the record map -/

theorem lookup_setRecord (recs : List (String × R)) (key : String) (r : R) :
    (setRecord recs key r).lookup key = some r := by
  induction recs with
  | nil => simp [setRecord]
  | cons p rest ih =>
    obtain ⟨k, v⟩ := p
    by_cases hk : k = key
    · simp [setRecord, hk, List.lookup]
    · have hbeq : (key == k) = false := beq_eq_false_iff_ne.mpr (Ne.symm hk)
      simp [setRecord, hk, List.lookup, hbeq, ih]

theorem lookup_eq_none_iff (recs : List (String × R)) (key : String) :
    recs.lookup key = none ↔ key ∉ recs.map Prod.fst := by
  induction recs with
  | nil => simp
  | cons p rest ih =>
    obtain ⟨k, v⟩ := p
    by_cases hk : key = k
    · subst hk
      simp [List.lookup]
    · have hbeq : (key == k) = false := beq_eq_false_iff_ne.mpr hk
      simp only [List.lookup, hbeq, List.map_cons, List.mem_cons]
      rw [ih]
      simp [hk]

theorem setRecord_of_lookup_none (recs : List (String × R)) (key : String)
    (r : R) (h : recs.lookup key = none) :
    setRecord recs key r = recs ++ [(key, r)] := by
  induction recs with
  | nil => simp [setRecord]
  | cons p rest ih =>
    obtain ⟨k, v⟩ := p
    by_cases hk : k = key
    · subst hk
      simp [List.lookup] at h
    · have hbeq : (key == k) = false := beq_eq_false_iff_ne.mpr (Ne.symm hk)
      simp only [List.lookup, hbeq] at h
      simp [setRecord, hk, ih h]

theorem keys_setRecord_of_lookup_some (recs : List (String × R)) (key : String)
    (r e : R) (h : recs.lookup key = some e) :
    (setRecord recs key r).map Prod.fst = recs.map Prod.fst := by
  induction recs with
  | nil => simp [List.lookup] at h
  | cons p rest ih =>
    obtain ⟨k, v⟩ := p
    by_cases hk : k = key
    · subst hk
      simp [setRecord]
    · have hbeq : (key == k) = false := beq_eq_false_iff_ne.mpr (Ne.symm hk)
      simp only [List.lookup, hbeq] at h
      simp [setRecord, hk, ih h]

theorem nodup_keys_setRecord (recs : List (String × R)) (key : String) (r : R)
    (h : (recs.map Prod.fst).Nodup) :
    ((setRecord recs key r).map Prod.fst).Nodup := by
  cases hl : recs.lookup key with
  | some e => rw [keys_setRecord_of_lookup_some recs key r e hl]; exact h
  | none =>
    rw [setRecord_of_lookup_none recs key r hl]
    have hmem : key ∉ recs.map Prod.fst := (lookup_eq_none_iff recs key).mp hl
    simp [List.nodup_append, h, hmem]

theorem mem_setRecord (recs : List (String × R)) (key : String) (r : R)
    (p : String × R) (h : p ∈ setRecord recs key r) :
    p ∈ recs ∨ p = (key, r) := by
  induction recs with
  | nil => simp [setRecord] at h; simp [h]
  | cons q rest ih =>
    obtain ⟨k, v⟩ := q
    by_cases hk : k = key
    · simp [setRecord, hk] at h
      rcases h with h | h
      · right; exact h
      · left; exact List.mem_cons_of_mem _ h
    · simp only [setRecord, hk, if_false, List.mem_cons] at h
      rcases h with h | h
      · left; simp [h]
      · rcases ih h with h' | h'
        · left; exact List.mem_cons_of_mem _ h'
        · right; exact h'

/-! ### Lemmas about upserts -/

theorem upsertOne_total (kf : R → Int) (w : DatasetWriter R)
    (s : UpsertStats) (r : R) :
    (upsertOne kf (w, s) r).2.total = s.total + 1 := by
  unfold upsertOne UpsertStats.total
  cases h : w.records.lookup (toString (kf r)) with
  | some existing =>
    by_cases he : existing = r <;> simp [h, he] <;> omega
  | none =>
    simp only [h]
    omega

theorem upsertOne_nodup (kf : R → Int) (w : DatasetWriter R)
    (s : UpsertStats) (r : R) (h : (w.records.map Prod.fst).Nodup) :
    ((upsertOne kf (w, s) r).1.records.map Prod.fst).Nodup := by
  unfold upsertOne
  cases hl : w.records.lookup (toString (kf r)) with
  | some existing =>
    by_cases he : existing = r
    · simpa [hl, he]
    · simpa [hl, he] using nodup_keys_setRecord w.records _ r h
  | none => simpa [hl] using nodup_keys_setRecord w.records _ r h

theorem upsertOne_mem (kf : R → Int) (w : DatasetWriter R) (s : UpsertStats)
    (r : R) (p : String × R)
    (h : p ∈ (upsertOne kf (w, s) r).1.records) :
    p ∈ w.records ∨ p = (toString (kf r), r) := by
  unfold upsertOne at h
  cases hl : w.records.lookup (toString (kf r)) with
  | some existing =>
    by_cases he : existing = r
    · simp [hl, he] at h; exact Or.inl h
    · simp only [hl, he, if_false] at h
      exact mem_setRecord _ _ _ _ h
  | none =>
    simp only [hl] at h
    exact mem_setRecord _ _ _ _ h

theorem upsertOne_lookup_self (kf : R → Int) (w : DatasetWriter R)
    (s : UpsertStats) (r : R) :
    (upsertOne kf (w, s) r).1.records.lookup (toString (kf r)) = some r := by
  unfold upsertOne
  cases hl : w.records.lookup (toString (kf r)) with
  | some existing =>
    by_cases he : existing = r
    · subst he
      simp [hl]
    · simp [hl, he, lookup_setRecord]
  | none => simp [hl, lookup_setRecord]

theorem foldl_upsertOne_total (kf : R → Int) (rs : List R)
    (w : DatasetWriter R) (s : UpsertStats) :
    (rs.foldl (upsertOne kf) (w, s)).2.total = s.total + rs.length := by
  induction rs generalizing w s with
  | nil => simp
  | cons r rest ih =>
    rw [List.foldl_cons]
    have h1 := upsertOne_total kf w s r
    calc (rest.foldl (upsertOne kf) (upsertOne kf (w, s) r)).2.total
        = (upsertOne kf (w, s) r).2.total + rest.length := ih _ _
      _ = s.total + 1 + rest.length := by rw [h1]
      _ = s.total + (rest.length + 1) := by omega
      _ = s.total + (r :: rest).length := by simp

theorem foldl_upsertOne_nodup (kf : R → Int) (rs : List R)
    (w : DatasetWriter R) (s : UpsertStats)
    (h : (w.records.map Prod.fst).Nodup) :
    ((rs.foldl (upsertOne kf) (w, s)).1.records.map Prod.fst).Nodup := by
  induction rs generalizing w s with
  | nil => simpa
  | cons r rest ih =>
    rw [List.foldl_cons]
    have h1 := upsertOne_nodup kf w s r h
    have : upsertOne kf (w, s) r =
        ((upsertOne kf (w, s) r).1, (upsertOne kf (w, s) r).2) := rfl
    rw [this]
    exact ih _ _ h1

theorem foldl_upsertOne_mem (kf : R → Int) (rs : List R)
    (w : DatasetWriter R) (s : UpsertStats) (p : String × R)
    (h : p ∈ (rs.foldl (upsertOne kf) (w, s)).1.records) :
    p ∈ w.records ∨ ∃ r ∈ rs, p = (toString (kf r), r) := by
  induction rs generalizing w s with
  | nil => exact Or.inl h
  | cons r rest ih =>
    rw [List.foldl_cons] at h
    have : upsertOne kf (w, s) r =
        ((upsertOne kf (w, s) r).1, (upsertOne kf (w, s) r).2) := rfl
    rw [this] at h
    rcases ih _ _ h with h' | ⟨r', hr', hp⟩
    · rcases upsertOne_mem kf w s r p h' with h'' | h''
      · exact Or.inl h''
      · exact Or.inr ⟨r, List.mem_cons_self _ _, h''⟩
    · exact Or.inr ⟨r', List.mem_cons_of_mem _ hr', hp⟩

theorem flush_dirty_false (kf : R → Int) (enc : R → String)
    (w : DatasetWriter R) : (flush kf enc w).dirty = false := by
  unfold flush
  by_cases h : w.dirty <;> simp [h]

theorem flush_records (kf : R → Int) (enc : R → String) (w : DatasetWriter R) :
    (flush kf enc w).records = w.records := by
  unfold flush
  by_cases h : w.dirty <;> simp [h]

theorem upsertMany_already_present (kf : R → Int) (w : DatasetWriter R) (r : R)
    (h : w.records.lookup (toString (kf r)) = some r) :
    upsertMany kf w [r] = (w, ⟨0, 0, 1⟩) := by
  unfold upsertMany
  simp only [List.foldl_cons, List.foldl_nil]
  unfold upsertOne
  simp [h]

theorem flush_of_not_dirty (kf : R → Int) (enc : R → String)
    (w : DatasetWriter R) (h : w.dirty = false) : flush kf enc w = w := by
  unfold flush
  simp [h]

theorem upsertMany_singleton_lookup (kf : R → Int) (w : DatasetWriter R)
    (r : R) :
    (upsertMany kf w [r]).1.records.lookup (toString (kf r)) = some r := by
  unfold upsertMany
  simpa using upsertOne_lookup_self kf w {} r

end DatasetWriter

namespace ExponentialBackoff

theorem stepN_fields (b : ExponentialBackoff) (k : ℕ) :
    stepN b k = { b with attempts := b.attempts + k } := by
  induction k with
  | zero => rfl
  | succ k ih => simp [stepN, ih, nextDelay]; omega

end ExponentialBackoff

namespace RateLimiter

theorem trim_head_fresh (interval now : ℚ) (l : List ℚ) (t : ℚ) (rest : List ℚ)
    (h : trim interval now l = t :: rest) : now - t < interval := by
  induction l with
  | nil => simp [trim] at h
  | cons x xs ih =>
    by_cases hx : now - x ≥ interval
    · rw [trim, if_pos hx] at h
      exact ih h
    · rw [trim, if_neg hx] at h
      cases h
      exact lt_of_not_le (fun hc => hx hc)

end RateLimiter

open DatasetWriter in
/-- C1: `DatasetWriter.upsert_many` classifies each incoming record by its
stringified natural key: equal to the stored entry counts as unchanged and
leaves the map untouched; present with a different value counts as updated
and replaces the entry in place; absent counts as inserted and appends the
entry.  For every call inserted + updated + unchanged equals the number of
records passed and the map never holds two entries with the same key; and
upserting the identical record a second time yields inserted=0, updated=0,
unchanged=1, with a flush after that second call leaving the persisted
file byte-identical because the dirty flag was never set. -/
theorem C1_upsert_many_classification {R : Type} [DecidableEq R]
    (kf : R → Int) (enc : R → String) (w : DatasetWriter R) (rs : List R)
    (r e : R) (s : UpsertStats)
    (hkeys : (w.records.map Prod.fst).Nodup) :
    ((upsertMany kf w rs).2.inserted + (upsertMany kf w rs).2.updated +
        (upsertMany kf w rs).2.unchanged = rs.length)
    ∧ (((upsertMany kf w rs).1.records.map Prod.fst).Nodup)
    ∧ (w.records.lookup (toString (kf r)) = some r →
        upsertOne kf (w, s) r = (w, { s with unchanged := s.unchanged + 1 }))
    ∧ (w.records.lookup (toString (kf r)) = some e → e ≠ r →
        upsertOne kf (w, s) r =
          ({ w with records := setRecord w.records (toString (kf r)) r,
                    maxKey := updateMax w.maxKey (kf r), dirty := true },
           { s with updated := s.updated + 1 }))
    ∧ (w.records.lookup (toString (kf r)) = none →
        upsertOne kf (w, s) r =
          ({ w with records := w.records ++ [(toString (kf r), r)],
                    maxKey := updateMax w.maxKey (kf r), dirty := true },
           { s with inserted := s.inserted + 1 }))
    ∧ (upsertMany kf (flush kf enc (upsertMany kf w [r]).1) [r] =
        (flush kf enc (upsertMany kf w [r]).1, ⟨0, 0, 1⟩))
    ∧ (flush kf enc (flush kf enc (upsertMany kf w [r]).1) =
        flush kf enc (upsertMany kf w [r]).1) := by
  refine ⟨?_, ?_, ?_, ?_, ?_, ?_, ?_⟩
  · have h := foldl_upsertOne_total kf rs w ({} : UpsertStats)
    unfold upsertMany
    unfold UpsertStats.total at h
    simpa using h
  · exact foldl_upsertOne_nodup kf rs w {} hkeys
  · intro h
    unfold upsertOne
    simp [h]
  · intro h hne
    unfold upsertOne
    simp [h, hne]
  · intro h
    unfold upsertOne
    simp [h, setRecord_of_lookup_none w.records _ r h]
  · apply upsertMany_already_present
    rw [flush_records]
    exact upsertMany_singleton_lookup kf w r
  · apply flush_of_not_dirty
    exact flush_dirty_false kf enc _

/-- Witness for C1 at a concrete input: the three counters of
`upsert_many` partition a one-record batch on the empty writer. -/
theorem C1_upsert_many_classification_witness :
    (((sampleWriter.records.map Prod.fst).Nodup) : Prop)
    ∧ ((DatasetWriter.upsertMany (fun r => r) sampleWriter [7]).2.inserted +
        (DatasetWriter.upsertMany (fun r => r) sampleWriter [7]).2.updated +
        (DatasetWriter.upsertMany (fun r => r) sampleWriter [7]).2.unchanged =
        [(7 : Int)].length) :=
  ⟨by decide,
   (C1_upsert_many_classification (fun r => r) toString sampleWriter [7] 7 7 {}
      (by decide)).1⟩

open DatasetWriter in
/-- C2: `DatasetWriter.flush` is a no-op when no upsert has changed any
record since the previous flush; otherwise it writes every stored record
as one JSON line, ordered ascending by the natural-key field, to a fresh
temporary file and installs it over the target in a single replace step,
then clears the dirty flag; the target path always holds either the
previous complete file or the new complete file. -/
theorem C2_flush_atomic_sorted {R : Type} [DecidableEq R] (kf : R → Int)
    (enc : R → String) (w : DatasetWriter R) :
    (w.dirty = false → flush kf enc w = w)
    ∧ (w.dirty = true →
        flush kf enc w =
          { w with file := some (serialize kf enc w), dirty := false })
    ∧ ((sortedRecords kf w).Pairwise (fun a b => kf a ≤ kf b))
    ∧ ((sortedRecords kf w).Perm (w.records.map Prod.snd))
    ∧ ((flush kf enc w).file = w.file ∨
        (flush kf enc w).file = some (serialize kf enc w)) := by
  refine ⟨?_, ?_, ?_, ?_, ?_⟩
  · intro h
    exact flush_of_not_dirty kf enc w h
  · intro h
    unfold flush
    simp [h]
  · have := @List.sorted_insertionSort R (fun a b => kf a ≤ kf b) _
      ⟨fun a b => le_total (kf a) (kf b)⟩
      ⟨fun a b c hab hbc => le_trans hab hbc⟩
      (w.records.map Prod.snd)
    exact this
  · exact List.perm_insertionSort _ _
  · unfold flush
    by_cases h : w.dirty
    · right; simp [h]
    · left; simp [h]

/-- C5: for every `ExponentialBackoff` constructed with `initial > 0`,
`factor >= 1`, `maximum >= initial`, the k-th call to `next_delay` after
construction (or after the latest `reset`) returns
`min(initial * factor^k, maximum)` and increments the attempt counter;
`reset` zeroes the counter so the next call returns `initial` again; with
initial=1, factor=2, maximum=30 the successive values are
1, 2, 4, 8, 16, 30, 30. -/
theorem C5_backoff_growth (i f m : ℚ) (b : ExponentialBackoff) (k : ℕ)
    (hmk : ExponentialBackoff.make i f m = some b) :
    (ExponentialBackoff.delayAt b k = min (i * f ^ k) m)
    ∧ ((ExponentialBackoff.stepN b k).nextDelay.2.attempts = k + 1)
    ∧ (ExponentialBackoff.delayAt (ExponentialBackoff.stepN b k).reset 0 = i)
    ∧ ((ExponentialBackoff.stepN b k).reset.attempts = 0)
    ∧ ((List.range 7).map
        (ExponentialBackoff.delayAt ⟨1, 2, 30, 0⟩) =
        [1, 2, 4, 8, 16, 30, 30]) := by
  have hfields : b = ⟨i, f, m, 0⟩ ∧ ¬i ≤ 0 ∧ ¬f < 1 ∧ ¬m < i := by
    unfold ExponentialBackoff.make at hmk
    by_cases h1 : i ≤ 0
    · simp [h1] at hmk
    · by_cases h2 : f < 1
      · simp [h1, h2] at hmk
      · by_cases h3 : m < i
        · simp [h1, h2, h3] at hmk
        · simp [h1, h2, h3] at hmk
          exact ⟨hmk.symm, h1, h2, h3⟩
  obtain ⟨hb, hi, hf, hm⟩ := hfields
  subst hb
  refine ⟨?_, ?_, ?_, ?_, ?_⟩
  · unfold ExponentialBackoff.delayAt
    rw [ExponentialBackoff.stepN_fields]
    simp [ExponentialBackoff.nextDelay]
  · rw [ExponentialBackoff.stepN_fields]
    simp [ExponentialBackoff.nextDelay]
  · unfold ExponentialBackoff.delayAt
    simp only [ExponentialBackoff.stepN_fields, ExponentialBackoff.reset,
      ExponentialBackoff.nextDelay, ExponentialBackoff.stepN]
    simp
    exact le_of_not_lt hm
  · rw [ExponentialBackoff.stepN_fields]
    simp [ExponentialBackoff.reset]
  · have hd : ∀ k : ℕ,
        ExponentialBackoff.delayAt ⟨1, 2, 30, 0⟩ k = min ((2 : ℚ) ^ k) 30 := by
      intro k
      unfold ExponentialBackoff.delayAt
      rw [ExponentialBackoff.stepN_fields]
      simp [ExponentialBackoff.nextDelay]
    simp only [List.range_succ, List.map_append, List.map_cons, List.map_nil,
      List.range_zero, hd]
    norm_num

/-- Witness for C5 at a concrete input: constructing the backoff used by
the WebSocket streamer (initial=1, factor=2, maximum=30) and reading the
5th delay. -/
theorem C5_backoff_growth_witness :
    ExponentialBackoff.make 1 2 30 = some ⟨1, 2, 30, 0⟩
    ∧ ExponentialBackoff.delayAt ⟨1, 2, 30, 0⟩ 5 = min ((1 : ℚ) * 2 ^ 5) 30 :=
  ⟨by norm_num [ExponentialBackoff.make],
   (C5_backoff_growth 1 2 30 ⟨1, 2, 30, 0⟩ 5
      (by norm_num [ExponentialBackoff.make])).1⟩

/-- C6: an `acquire(weight)` attempt with `0 < weight <= capacity` first
discards timestamps `t` with `now - t >= interval`, then grants
immediately (recording `weight` copies of `now`) when
remaining + weight <= capacity, and otherwise suspends for
`interval - (now - oldest remaining)` before retrying; with capacity=2,
interval=60 and a controllable clock, three rapid weight-1 acquisitions
cause exactly one wait, of 60 seconds, incurred by the third call. -/
theorem C6_rate_limiter (rl : RateLimiter) (now : ℚ) (weight : ℕ) (t : ℚ)
    (rest : List ℚ) :
    ((RateLimiter.trim rl.interval now rl.events).length + weight ≤
        rl.capacity →
      RateLimiter.attempt rl now weight =
        .granted (RateLimiter.trim rl.interval now rl.events ++
          List.replicate weight now))
    ∧ (¬ (RateLimiter.trim rl.interval now rl.events).length + weight ≤
          rl.capacity →
        RateLimiter.trim rl.interval now rl.events = t :: rest →
        RateLimiter.attempt rl now weight =
          .wait (rl.interval - (now - t)))
    ∧ (RateLimiter.acquireRun 4 ⟨2, 60, []⟩ 0 1 [] =
        some (⟨2, 60, [0]⟩, 0, []))
    ∧ (RateLimiter.acquireRun 4 ⟨2, 60, [0]⟩ 0 1 [] =
        some (⟨2, 60, [0, 0]⟩, 0, []))
    ∧ (RateLimiter.acquireRun 4 ⟨2, 60, [0, 0]⟩ 0 1 [] =
        some (⟨2, 60, [60]⟩, 60, [60])) := by
  refine ⟨?_, ?_, ?_, ?_, ?_⟩
  · intro h
    unfold RateLimiter.attempt
    simp [h]
  · intro h ht
    rw [ht] at h
    unfold RateLimiter.attempt
    simp only [ht, h, if_false]
    have hfresh := RateLimiter.trim_head_fresh rl.interval now rl.events t rest ht
    rw [max_eq_right (by linarith)]
  · norm_num [RateLimiter.acquireRun, RateLimiter.attempt, RateLimiter.trim]
  · norm_num [RateLimiter.acquireRun, RateLimiter.attempt, RateLimiter.trim]
  · norm_num [RateLimiter.acquireRun, RateLimiter.attempt, RateLimiter.trim,
      List.replicate]

/-- Witness for C6 at a concrete input: on a fresh capacity-2 limiter a
weight-1 acquisition at clock 0 is granted immediately. -/
theorem C6_rate_limiter_witness :
    RateLimiter.attempt ⟨2, 60, []⟩ 0 1 =
      .granted (RateLimiter.trim (60 : ℚ) 0 ([] : List ℚ) ++
        List.replicate 1 (0 : ℚ)) :=
  (C6_rate_limiter ⟨2, 60, []⟩ 0 1 0 []).1 (by norm_num [RateLimiter.trim])

/-- C10: `RateLimiter.acquire` is total only under the precondition
`weight <= capacity`: with `weight > capacity` and an empty (trimmed)
timestamp window the grant test cannot succeed and indexing the first
element of the empty deque raises an uncaught `IndexError`; with
`0 < weight <= capacity` the indexing branch is only reached with a
non-empty window and the attempt never raises. -/
theorem C10_acquire_overweight_index_error (rl : RateLimiter) (now : ℚ)
    (weight : ℕ) :
    (rl.capacity < weight →
      RateLimiter.trim rl.interval now rl.events = [] →
      RateLimiter.attempt rl now weight = .indexError)
    ∧ (0 < weight → weight ≤ rl.capacity →
        RateLimiter.attempt rl now weight ≠ .indexError) := by
  constructor
  · intro hw htrim
    unfold RateLimiter.attempt
    simp only [htrim]
    rw [if_neg ?_]
    simp
    omega
  · intro hw hle
    unfold RateLimiter.attempt
    by_cases h : (RateLimiter.trim rl.interval now rl.events).length + weight ≤
        rl.capacity
    · simp [h]
    · simp only [h, if_false]
      cases htrim : RateLimiter.trim rl.interval now rl.events with
      | nil =>
        exfalso
        rw [htrim] at h
        simp at h
        omega
      | cons t rest => simp

/-- Witness for C10 at a concrete input: acquiring weight 3 on a fresh
capacity-2 limiter raises `IndexError`. -/
theorem C10_acquire_overweight_index_error_witness :
    RateLimiter.attempt ⟨2, 60, []⟩ 0 3 = .indexError :=
  (C10_acquire_overweight_index_error ⟨2, 60, []⟩ 0 3).1 (by decide)
    (by norm_num [RateLimiter.trim])

/-- Witness for C2 at a concrete input: flushing a dirty writer installs
the full sorted serialization and clears the dirty flag. -/
theorem C2_flush_atomic_sorted_witness :
    dirtySampleWriter.dirty = true
    ∧ DatasetWriter.flush (fun r => r) toString dirtySampleWriter =
        { dirtySampleWriter with
            file := some
              (DatasetWriter.serialize (fun r => r) toString dirtySampleWriter),
            dirty := false } :=
  ⟨rfl,
   (C2_flush_atomic_sorted (fun r => r) toString dirtySampleWriter).2.1 rfl⟩

theorem restGetLoop_attempts_le {V : Type} (outs : ℕ → Outcome V)
    (retry : List ℕ) (attempt rest : ℕ) :
    (restGetLoop outs retry attempt rest).2 ≤ attempt + rest + 1 := by
  induction rest generalizing attempt with
  | zero =>
    unfold restGetLoop
    cases outs attempt <;> simp
  | succ rest ih =>
    unfold restGetLoop
    cases outs attempt with
    | success v => simp
    | httpStatus c =>
      by_cases hc : c ∈ retry
      · simp only [hc, if_true]
        have := ih (attempt + 1)
        omega
      · simp [hc]
    | transport =>
      have := ih (attempt + 1)
      simp only []
      omega

/-- C7 counterexample: status 500 lies in the server-error class and in
the asynchronous client's default retryable set, but not in the
synchronous client's: with three attempts allowed and a success available
from the second attempt on, `BinanceRESTClient._get` fails after a single
attempt instead of retrying, refuting the claim that the default
retryable set of every REST fetch operation includes the server-error
class. -/
theorem C7_rest_retry_counterexample :
    (500 ∉ syncRetryStatuses)
    ∧ (500 ∈ asyncRetryStatuses)
    ∧ syncGet outs500 3 = (.restError (.httpStatus 500), 1)
    ∧ asyncGet outs500 3 = (.ok 7, 2) := by
  refine ⟨by decide, by decide, by decide, by decide⟩

/-- C7 (amended): every REST fetch makes at most `max(1, configured max)`
attempts; the synchronous client retries exactly the statuses
{418, 429, 504} (the rate-limit statuses plus 504) while the asynchronous
client's default set additionally holds the rest of the server-error
class {500, 502, 503}; a retryable status or any transport failure
triggers a backoff wait and a retry while attempts remain, a
non-retryable status or exhaustion of the attempt budget fails with the
REST error wrapping the last underlying failure, and no bare HTTP
exception escapes: every result is `ok` or `restError`. -/
theorem C7_rest_retry {V : Type} (outs : ℕ → Outcome V) (retry : List ℕ)
    (attempt rest maxRetries : ℕ) (v : V) (c : ℕ) :
    ((restGetLoop outs retry attempt rest).2 ≤ attempt + rest + 1)
    ∧ ((syncGet outs maxRetries).2 ≤ max 1 maxRetries)
    ∧ ((asyncGet outs maxRetries).2 ≤ max 1 maxRetries)
    ∧ (syncRetryStatuses = [418, 429, 504])
    ∧ (asyncRetryStatuses = [418, 429, 500, 502, 503, 504])
    ∧ (outs attempt = .success v →
        restGetLoop outs retry attempt rest = (.ok v, attempt + 1))
    ∧ (outs attempt = .httpStatus c → c ∉ retry →
        restGetLoop outs retry attempt rest =
          (.restError (.httpStatus c), attempt + 1))
    ∧ (outs attempt = .httpStatus c → c ∈ retry →
        restGetLoop outs retry attempt (rest + 1) =
          restGetLoop outs retry (attempt + 1) rest)
    ∧ (outs attempt = .transport →
        restGetLoop outs retry attempt (rest + 1) =
          restGetLoop outs retry (attempt + 1) rest)
    ∧ (outs attempt = .httpStatus c →
        restGetLoop outs retry attempt 0 =
          (.restError (.httpStatus c), attempt + 1))
    ∧ (outs attempt = .transport →
        restGetLoop outs retry attempt 0 =
          (.restError .transport, attempt + 1))
    ∧ ((∃ w, (restGetLoop outs retry attempt rest).1 = .ok w) ∨
        ∃ o, (restGetLoop outs retry attempt rest).1 = .restError o) := by
  refine ⟨restGetLoop_attempts_le outs retry attempt rest, ?_, ?_, rfl, rfl,
    ?_, ?_, ?_, ?_, ?_, ?_, ?_⟩
  · have := restGetLoop_attempts_le outs syncRetryStatuses 0 (max 1 maxRetries - 1)
    unfold syncGet
    omega
  · have := restGetLoop_attempts_le outs asyncRetryStatuses 0 (max 1 maxRetries - 1)
    unfold asyncGet
    omega
  · intro h
    cases rest <;> (unfold restGetLoop; rw [h])
  · intro h hc
    cases rest with
    | zero =>
      unfold restGetLoop
      rw [h]
    | succ n =>
      unfold restGetLoop
      rw [h]
      simp [hc]
  · intro h hc
    conv_lhs => rw [restGetLoop]
    rw [h]
    simp [hc]
  · intro h
    conv_lhs => rw [restGetLoop]
    rw [h]
  · intro h
    unfold restGetLoop
    rw [h]
  · intro h
    unfold restGetLoop
    rw [h]
  · cases hres : (restGetLoop outs retry attempt rest).1 with
    | ok w => exact Or.inl ⟨w, rfl⟩
    | restError o => exact Or.inr ⟨o, rfl⟩

/-- Witness for C7 at a concrete input: a first-attempt success returns
the body after one attempt. -/
theorem C7_rest_retry_witness :
    restGetLoop (fun _ => Outcome.success 7) syncRetryStatuses 0 2 =
      (.ok 7, 1) :=
  (C7_rest_retry (fun _ => Outcome.success 7) syncRetryStatuses 0 2 3 7
      500).2.2.2.2.2.1 rfl

/-- C8 counterexample: a message that is valid JSON, whose payload is a
mapping, and that contains every required key, but binds `"a"` to `null`:
`int(None)` raises an uncaught `TypeError` instead of the claimed
fully-populated `AggTrade` (and instead of a `None` return), so the
stream's surrounding loop sees an exception rather than a skip. -/
theorem C8_decode_trade_counterexample :
    decodeTrade "btcusdt" (.parsed (.pydict nullFieldEntries)) = .raised
    ∧ (requiredKeys.all
        (fun k => (nullFieldEntries.lookup k).isSome)) = true := by
  exact ⟨rfl, rfl⟩

/-- C8 (amended): `_decode_trade` returns a fully populated `AggTrade`
for every message that is valid JSON — raw or wrapped in a
`{"data": {...}}` envelope — whose payload is a mapping containing all of
the keys a, p, q, f, l, T, m *with values convertible by `int()` /
`float()`*; for a message that fails JSON parsing, whose payload is not a
mapping, or that is missing a required key it returns `None` without
raising, so such a message is skipped; but a payload with all keys
present and a non-convertible value raises an uncaught conversion error
instead of being skipped. -/
theorem C8_decode_trade (symbol : String) (payload : PyVal)
    (entries : List (String × PyVal)) (v : PyVal)
    (a f l T : Int) (p q : ℚ) :
    (decodeTrade symbol .malformed = .skipped)
    ∧ (payload.isDict = false → decodePayload symbol payload = .skipped)
    ∧ (requiredKeys.all (fun k => (entries.lookup k).isSome) = false →
        decodePayload symbol (.pydict entries) = .skipped)
    ∧ (entries.lookup "data" = some v →
        decodeTrade symbol (.parsed (.pydict entries)) =
          decodePayload symbol v)
    ∧ (entries.lookup "data" = Option.none →
        decodeTrade symbol (.parsed (.pydict entries)) =
          decodePayload symbol (.pydict entries))
    ∧ (requiredKeys.all (fun k => (entries.lookup k).isSome) = true →
        PyVal.pyToInt ((entries.lookup "a").getD .pynone) = some a →
        PyVal.pyToFloat ((entries.lookup "p").getD .pynone) = some p →
        PyVal.pyToFloat ((entries.lookup "q").getD .pynone) = some q →
        PyVal.pyToInt ((entries.lookup "f").getD .pynone) = some f →
        PyVal.pyToInt ((entries.lookup "l").getD .pynone) = some l →
        PyVal.pyToInt ((entries.lookup "T").getD .pynone) = some T →
        decodePayload symbol (.pydict entries) =
          .trade ⟨symbol.toUpper, a, p, q, f, l, T,
            PyVal.pyToBool ((entries.lookup "m").getD .pynone)⟩)
    ∧ (requiredKeys.all (fun k => (entries.lookup k).isSome) = true →
        decodePayload symbol (.pydict entries) ≠ .skipped) := by
  refine ⟨rfl, ?_, ?_, ?_, ?_, ?_, ?_⟩
  · intro h
    cases payload <;> first | rfl | simp [PyVal.isDict] at h
  · intro h
    simp only [decodePayload, decodeEntries]
    simp [h]
  · intro h
    simp only [decodeTrade]
    rw [h]
  · intro h
    simp only [decodeTrade]
    rw [h]
  · intro hall ha hp hq hf hl hT
    simp only [decodePayload, decodeEntries]
    rw [hall]
    simp only [if_true]
    rw [ha, hp, hq, hf, hl, hT]
  · intro hall
    simp only [decodePayload, decodeEntries]
    rw [hall]
    simp only [if_true]
    cases PyVal.pyToInt ((entries.lookup "a").getD .pynone) <;>
      cases PyVal.pyToFloat ((entries.lookup "p").getD .pynone) <;>
      cases PyVal.pyToFloat ((entries.lookup "q").getD .pynone) <;>
      cases PyVal.pyToInt ((entries.lookup "f").getD .pynone) <;>
      cases PyVal.pyToInt ((entries.lookup "l").getD .pynone) <;>
      cases PyVal.pyToInt ((entries.lookup "T").getD .pynone) <;>
      simp

/-- Witness for C8 at a concrete input: decoding a well-formed payload
with all keys present and convertible values yields the populated trade. -/
theorem C8_decode_trade_witness :
    decodePayload "btcusdt" (.pydict simpleTradeEntries) =
      .trade ⟨"btcusdt".toUpper, 1, ((2 : Int) : ℚ), ((3 : Int) : ℚ), 4, 5, 6,
        PyVal.pyToBool ((simpleTradeEntries.lookup "m").getD .pynone)⟩ :=
  (C8_decode_trade "btcusdt" .pynone simpleTradeEntries .pynone 1 4 5 6
      ((2 : Int) : ℚ) ((3 : Int) : ℚ)).2.2.2.2.2.1
    rfl rfl rfl rfl rfl rfl rfl

/-- C9 counterexample: with `candle_poll_interval = 4` seconds an empty
poll waits `max(5.0, 4 / 2) = 5` seconds, not the claimed half of the
configured interval (2 seconds). -/
theorem C9_candle_poll_counterexample :
    (candlesLoopBody ⟨2, 2, 120, 0⟩ 4 false).2 = 5 ∧ ((5 : ℚ) ≠ 4 / 2) := by
  constructor
  · norm_num [candlesLoopBody]
  · norm_num

/-- C9 (amended): each candle-loop iteration polls REST with start_time
equal to the latest stored open_time plus one (or with no lower bound
when the store is empty); when the poll ingests at least one row the loop
resets its backoff and waits the configured candle poll interval, and
when it ingests nothing it waits `max(5.0, interval / 2)` — half the
configured interval, floored at five seconds. -/
theorem C9_candle_poll_cadence {γ : Type} (latest : Option Int) (k : Int)
    (fetch : Option Int → List γ) (b : ExponentialBackoff)
    (pollInterval : ℚ) :
    ((ingestCandlesOnce latest fetch).1 = latest.map (· + 1))
    ∧ (latest = some k → (ingestCandlesOnce latest fetch).1 = some (k + 1))
    ∧ (latest = Option.none →
        (ingestCandlesOnce latest fetch).1 = Option.none)
    ∧ ((ingestCandlesOnce latest fetch).2 = true ↔
        fetch (latest.map (· + 1)) ≠ [])
    ∧ (candlesLoopBody b pollInterval true = (b.reset, pollInterval))
    ∧ (candlesLoopBody b pollInterval false =
        (b, max 5 (pollInterval / 2))) := by
  refine ⟨rfl, ?_, ?_, ?_, rfl, rfl⟩
  · intro h
    rw [h]
    rfl
  · intro h
    rw [h]
    rfl
  · unfold ingestCandlesOnce
    simp [List.isEmpty_iff]

theorem mem_upsertMany_records {R : Type} [DecidableEq R] (kf : R → Int)
    (w : DatasetWriter R) (rs : List R) (p : String × R)
    (h : p ∈ (DatasetWriter.upsertMany kf w rs).1.records) :
    p ∈ w.records ∨ ∃ r ∈ rs, p = (toString (kf r), r) := by
  unfold DatasetWriter.upsertMany at h
  exact DatasetWriter.foldl_upsertOne_mem kf rs w {} p h

theorem runCandlesBody_spec {R : Type} [DecidableEq R] (kf : R → Int)
    (enc : R → String) (fetch : Int → List R) (intervalMs endMs : Int)
    (s : CandleRunState R) (cursor : Int) :
    (∀ s', runCandlesBody kf enc fetch intervalMs endMs s cursor = .done s' →
      s'.requests = s.requests ++ [cursor] ∧
      ∀ p ∈ s'.writer.records, p ∈ s.writer.records ∨
        ∃ r', cursor ≤ kf r' ∧ kf r' ≤ endMs ∧ p = (toString (kf r'), r'))
    ∧ (∀ s' c',
        runCandlesBody kf enc fetch intervalMs endMs s cursor = .next s' c' →
      s'.requests = s.requests ++ [cursor] ∧ cursor + intervalMs ≤ c' ∧
      ∀ p ∈ s'.writer.records, p ∈ s.writer.records ∨
        ∃ r', cursor ≤ kf r' ∧ kf r' ≤ endMs ∧ p = (toString (kf r'), r')) := by
  have hmem : ∀ (l : List R) (r' : R),
      r' ∈ l.filter (fun r => decide (cursor ≤ kf r) && decide (kf r ≤ endMs)) →
      cursor ≤ kf r' ∧ kf r' ≤ endMs := by
    intro l r' hr'
    have := (List.mem_filter.mp hr').2
    simp at this
    exact this
  have hrecs : ∀ (rs : List R) (p : String × R),
      (∀ r' ∈ rs, cursor ≤ kf r' ∧ kf r' ≤ endMs) →
      p ∈ (DatasetWriter.flush kf enc
        (DatasetWriter.upsertMany kf s.writer rs).1).records →
      p ∈ s.writer.records ∨
        ∃ r', cursor ≤ kf r' ∧ kf r' ≤ endMs ∧ p = (toString (kf r'), r') := by
    intro rs p hbound hp
    rw [DatasetWriter.flush_records] at hp
    rcases mem_upsertMany_records kf s.writer rs p hp with h | ⟨r', hr', hpr⟩
    · exact Or.inl h
    · exact Or.inr ⟨r', (hbound r' hr').1, (hbound r' hr').2, hpr⟩
  constructor
  · intro s' hdone
    unfold runCandlesBody at hdone
    by_cases hb : (fetch cursor).isEmpty
    · simp only [hb, if_true] at hdone
      cases hdone
      exact ⟨rfl, fun p hp => Or.inl hp⟩
    · simp only [hb, if_false] at hdone
      cases hfil : (fetch cursor).filter
          (fun r => decide (cursor ≤ kf r) && decide (kf r ≤ endMs)) with
      | nil => rw [hfil] at hdone; cases hdone
      | cons r rest =>
        rw [hfil] at hdone
        by_cases hcur :
            kf ((r :: rest).getLast (by simp)) + intervalMs > endMs
        · simp only [hcur, if_true] at hdone
          cases hdone
          refine ⟨rfl, fun p hp => ?_⟩
          refine hrecs (r :: rest) p ?_ hp
          intro r' hr'
          exact hmem (fetch cursor) r' (hfil ▸ hr')
        · simp only [hcur, if_false] at hdone
          cases hdone
  · intro s' c' hnext
    unfold runCandlesBody at hnext
    by_cases hb : (fetch cursor).isEmpty
    · simp only [hb, if_true] at hnext
      cases hnext
    · simp only [hb, if_false] at hnext
      cases hfil : (fetch cursor).filter
          (fun r => decide (cursor ≤ kf r) && decide (kf r ≤ endMs)) with
      | nil =>
        rw [hfil] at hnext
        cases hnext
        exact ⟨rfl, le_refl _, fun p hp => Or.inl hp⟩
      | cons r rest =>
        rw [hfil] at hnext
        by_cases hcur :
            kf ((r :: rest).getLast (by simp)) + intervalMs > endMs
        · simp only [hcur, if_true] at hnext
          cases hnext
        · simp only [hcur, if_false] at hnext
          cases hnext
          have hlast : cursor ≤ kf ((r :: rest).getLast (by simp)) ∧
              kf ((r :: rest).getLast (by simp)) ≤ endMs := by
            refine hmem (fetch cursor) _ ?_
            rw [hfil]
            exact List.getLast_mem (by simp)
          refine ⟨rfl, by omega, fun p hp => ?_⟩
          refine hrecs (r :: rest) p ?_ hp
          intro r' hr'
          exact hmem (fetch cursor) r' (hfil ▸ hr')

theorem runCandlesLoop_inv {R : Type} [DecidableEq R] (kf : R → Int)
    (enc : R → String) (fetch : Int → List R) (intervalMs endMs lo : Int)
    (Q : String × R → Prop)
    (hQ : ∀ r : R, lo ≤ kf r → kf r ≤ endMs → Q (toString (kf r), r))
    (hiv : 0 ≤ intervalMs) :
    ∀ (fuel : ℕ) (s : CandleRunState R) (cursor : Int)
      (out : CandleRunState R),
      lo ≤ cursor →
      (∀ c ∈ s.requests, lo ≤ c) →
      (∀ p ∈ s.writer.records, Q p) →
      runCandlesLoop kf enc fetch intervalMs endMs fuel s cursor = some out →
      (∀ c ∈ out.requests, lo ≤ c) ∧ ∀ p ∈ out.writer.records, Q p := by
  intro fuel
  induction fuel with
  | zero =>
    intro s cursor out hc hreq hrec hrun
    rw [runCandlesLoop] at hrun
    by_cases hcend : cursor ≤ endMs
    · simp [hcend] at hrun
    · simp only [hcend, if_false, Option.some.injEq] at hrun
      subst hrun
      exact ⟨hreq, fun p hp => hrec p (by
        rwa [DatasetWriter.flush_records] at hp)⟩
  | succ fuel ih =>
    intro s cursor out hc hreq hrec hrun
    rw [runCandlesLoop] at hrun
    by_cases hcend : cursor ≤ endMs
    · simp only [hcend, if_true] at hrun
      cases hbody : runCandlesBody kf enc fetch intervalMs endMs s cursor with
      | done s' =>
        rw [hbody] at hrun
        simp only [Option.some.injEq] at hrun
        subst hrun
        obtain ⟨hreq', hrec'⟩ :=
          (runCandlesBody_spec kf enc fetch intervalMs endMs s cursor).1
            s' hbody
        constructor
        · intro c hcmem
          rw [hreq'] at hcmem
          rcases List.mem_append.mp hcmem with h | h
          · exact hreq c h
          · simp at h
            omega
        · intro p hp
          rw [DatasetWriter.flush_records] at hp
          rcases hrec' p hp with h | ⟨r', h1, h2, h3⟩
          · exact hrec p h
          · subst h3
            exact hQ r' (le_trans hc h1) h2
      | next s' c' =>
        rw [hbody] at hrun
        obtain ⟨hreq', hcur', hrec'⟩ :=
          (runCandlesBody_spec kf enc fetch intervalMs endMs s cursor).2
            s' c' hbody
        refine ih s' c' out (by omega) ?_ ?_ hrun
        · intro c hcmem
          rw [hreq'] at hcmem
          rcases List.mem_append.mp hcmem with h | h
          · exact hreq c h
          · simp at h
            omega
        · intro p hp
          rcases hrec' p hp with h | ⟨r', h1, h2, h3⟩
          · exact hrec p h
          · subst h3
            exact hQ r' (le_trans hc h1) h2
    · simp only [hcend, if_false, Option.some.injEq] at hrun
      subst hrun
      exact ⟨hreq, fun p hp => hrec p (by
        rwa [DatasetWriter.flush_records] at hp)⟩

/-- C3: a resumed candle backfill over a store whose maximum stored
open_time is K starts its cursor at `max(configured start, K + 1)`, every
`fetch_klines` request uses a start time at least that cursor, and every
batch is filtered to `batch-start-cursor <= open_time <= end` before
upserting, so every record in the final store either was already present
or has `K < open_time` and `start <= open_time <= end`: no record with
`open_time <= K` or outside the configured window is persisted by the
resumed run. -/
theorem C3_resume_requests_and_bounds {R : Type} [DecidableEq R]
    (kf : R → Int) (enc : R → String) (fetch : Int → List R)
    (intervalMs startMs endMs K : Int) (w : DatasetWriter R) (fuel : ℕ)
    (out : CandleRunState R)
    (hiv : 0 ≤ intervalMs) (hK : w.maxKey = some K)
    (hrun : runCandles kf enc fetch intervalMs startMs endMs w true fuel =
      some out) :
    (runCandles kf enc fetch intervalMs startMs endMs w true fuel =
      runCandlesLoop kf enc fetch intervalMs endMs fuel ⟨w, []⟩
        (max startMs (K + 1)))
    ∧ (∀ c ∈ out.requests, max startMs (K + 1) ≤ c)
    ∧ (∀ p ∈ out.writer.records, p ∈ w.records ∨
        (K < kf p.2 ∧ startMs ≤ kf p.2 ∧ kf p.2 ≤ endMs)) := by
  have hentry : runCandles kf enc fetch intervalMs startMs endMs w true fuel =
      runCandlesLoop kf enc fetch intervalMs endMs fuel ⟨w, []⟩
        (max startMs (K + 1)) := by
    unfold runCandles
    rw [hK]
  rw [hentry] at hrun
  have hinv := runCandlesLoop_inv kf enc fetch intervalMs endMs
    (max startMs (K + 1))
    (fun p => p ∈ w.records ∨
      (K < kf p.2 ∧ startMs ≤ kf p.2 ∧ kf p.2 ≤ endMs))
    (fun r hlo hhi => Or.inr
      ⟨show K < kf r by omega, show startMs ≤ kf r by omega, hhi⟩)
    hiv fuel ⟨w, []⟩ (max startMs (K + 1)) out (le_refl _)
    (by intro c hcmem; simp at hcmem)
    (fun p hp => Or.inl hp) hrun
  exact ⟨hentry, hinv.1, hinv.2⟩

theorem runCandlesLoop_isSome {R : Type} [DecidableEq R] (kf : R → Int)
    (enc : R → String) (fetch : Int → List R) (intervalMs endMs : Int)
    (hiv : 0 < intervalMs) :
    ∀ (fuel : ℕ) (s : CandleRunState R) (cursor : Int),
      endMs + 2 - cursor ≤ (fuel : Int) →
      (runCandlesLoop kf enc fetch intervalMs endMs fuel s cursor).isSome := by
  intro fuel
  induction fuel with
  | zero =>
    intro s cursor hfuel
    rw [runCandlesLoop]
    have hc : ¬ cursor ≤ endMs := by
      intro hc
      simp at hfuel
      omega
    simp [hc]
  | succ fuel ih =>
    intro s cursor hfuel
    rw [runCandlesLoop]
    by_cases hc : cursor ≤ endMs
    · simp only [hc, if_true]
      cases hbody : runCandlesBody kf enc fetch intervalMs endMs s cursor with
      | done s' => simp
      | next s' c' =>
        have hstep :=
          ((runCandlesBody_spec kf enc fetch intervalMs endMs s cursor).2
            s' c' hbody).2.1
        apply ih
        push_cast at hfuel
        omega
    · simp [hc]

theorem runTradesBody_next_lt {R : Type} [DecidableEq R]
    (kfKey kfTime : R → Int) (enc : R → String)
    (fetch : Int → Int → Option Int → List R) (endMs : Int)
    (s : TradeRunState R) (cursor : Int) (s' : TradeRunState R) (c' : Int)
    (hc : cursor ≤ endMs)
    (h : runTradesBody kfKey kfTime enc fetch endMs s cursor = .next s' c') :
    cursor < c' := by
  unfold runTradesBody at h
  have htw : (0 : Int) ≤ tradeWindowMs := by norm_num [tradeWindowMs]
  have htarget : cursor ≤ min (cursor + tradeWindowMs) endMs := by omega
  by_cases hb : (fetch cursor (min (cursor + tradeWindowMs) endMs)
      s.fromId).isEmpty
  · simp only [hb, if_true] at h
    cases h
    omega
  · simp only [hb, if_false] at h
    cases hfil : (fetch cursor (min (cursor + tradeWindowMs) endMs)
        s.fromId).filter
        (fun r => decide (cursor ≤ kfTime r) && decide (kfTime r ≤ endMs)) with
    | nil =>
      rw [hfil] at h
      cases h
      omega
    | cons r rest =>
      rw [hfil] at h
      by_cases hcur :
          kfTime ((r :: rest).getLast (by simp)) + 1 > endMs
      · simp only [hcur, if_true] at h
        cases h
      · simp only [hcur, if_false] at h
        cases h
        have hlast : cursor ≤ kfTime ((r :: rest).getLast (by simp)) := by
          have hmem : (r :: rest).getLast (by simp) ∈
              (fetch cursor (min (cursor + tradeWindowMs) endMs)
                s.fromId).filter
              (fun x => decide (cursor ≤ kfTime x) &&
                decide (kfTime x ≤ endMs)) := by
            rw [hfil]
            exact List.getLast_mem (by simp)
          have := (List.mem_filter.mp hmem).2
          simp at this
          exact this.1
        omega

theorem runTradesLoop_isSome {R : Type} [DecidableEq R]
    (kfKey kfTime : R → Int) (enc : R → String)
    (fetch : Int → Int → Option Int → List R) (endMs : Int) :
    ∀ (fuel : ℕ) (s : TradeRunState R) (cursor : Int),
      endMs + 2 - cursor ≤ (fuel : Int) →
      (runTradesLoop kfKey kfTime enc fetch endMs fuel s cursor).isSome := by
  intro fuel
  induction fuel with
  | zero =>
    intro s cursor hfuel
    rw [runTradesLoop]
    have hc : ¬ cursor ≤ endMs := by
      intro hc
      simp at hfuel
      omega
    simp [hc]
  | succ fuel ih =>
    intro s cursor hfuel
    rw [runTradesLoop]
    by_cases hc : cursor ≤ endMs
    · simp only [hc, if_true]
      cases hbody : runTradesBody kfKey kfTime enc fetch endMs s cursor with
      | done s' => simp
      | next s' c' =>
        have hstep := runTradesBody_next_lt kfKey kfTime enc fetch endMs
          s cursor s' c' hc hbody
        apply ih
        push_cast at hfuel
        omega
    · simp [hc]

theorem runWindowedBody_next_lt {R : Type} [DecidableEq R] (kf : R → Int)
    (enc : R → String) (fetch : Int → Int → List R)
    (windowMs adv endMs : Int) (w : DatasetWriter R) (cursor : Int)
    (w' : DatasetWriter R) (c' : Int) (hc : cursor ≤ endMs)
    (hwin : 0 ≤ windowMs) (hadv : 0 < adv)
    (h : runWindowedBody kf enc fetch windowMs adv endMs w cursor =
      .next w' c') :
    cursor < c' := by
  unfold runWindowedBody at h
  have htarget : cursor ≤ min (cursor + windowMs) endMs := by omega
  by_cases hb : (fetch cursor (min (cursor + windowMs) endMs)).isEmpty
  · simp only [hb, if_true] at h
    cases h
    omega
  · simp only [hb, if_false] at h
    cases hfil : (fetch cursor (min (cursor + windowMs) endMs)).filter
        (fun r => decide (cursor ≤ kf r) && decide (kf r ≤ endMs)) with
    | nil =>
      rw [hfil] at h
      cases h
      omega
    | cons r rest =>
      rw [hfil] at h
      by_cases hcur : kf ((r :: rest).getLast (by simp)) + adv > endMs
      · simp only [hcur, if_true] at h
        cases h
      · simp only [hcur, if_false] at h
        cases h
        have hlast : cursor ≤ kf ((r :: rest).getLast (by simp)) := by
          have hmem : (r :: rest).getLast (by simp) ∈
              (fetch cursor (min (cursor + windowMs) endMs)).filter
              (fun x => decide (cursor ≤ kf x) && decide (kf x ≤ endMs)) := by
            rw [hfil]
            exact List.getLast_mem (by simp)
          have := (List.mem_filter.mp hmem).2
          simp at this
          exact this.1
        omega

theorem runWindowedLoop_isSome {R : Type} [DecidableEq R] (kf : R → Int)
    (enc : R → String) (fetch : Int → Int → List R)
    (windowMs adv endMs : Int) (hwin : 0 ≤ windowMs) (hadv : 0 < adv) :
    ∀ (fuel : ℕ) (w : DatasetWriter R) (cursor : Int),
      endMs + 2 - cursor ≤ (fuel : Int) →
      (runWindowedLoop kf enc fetch windowMs adv endMs fuel w cursor).isSome := by
  intro fuel
  induction fuel with
  | zero =>
    intro w cursor hfuel
    rw [runWindowedLoop]
    have hc : ¬ cursor ≤ endMs := by
      intro hc
      simp at hfuel
      omega
    simp [hc]
  | succ fuel ih =>
    intro w cursor hfuel
    rw [runWindowedLoop]
    by_cases hc : cursor ≤ endMs
    · simp only [hc, if_true]
      cases hbody : runWindowedBody kf enc fetch windowMs adv endMs w cursor
        with
      | done w' => simp
      | next w' c' =>
        have hstep := runWindowedBody_next_lt kf enc fetch windowMs adv endMs
          w cursor w' c' hc hwin hadv hbody
        apply ih
        push_cast at hfuel
        omega
    · simp [hc]

/-- C4: on every iteration of each backfill loop (candles, trades, open
interest, funding — the latter two share `runWindowedBody` with their
respective window size and advance), a non-empty batch whose filtering
removes every row upserts nothing and strictly advances the cursor
(candles by one interval, the windowed kinds past the current window's
end), an upserted candle batch advances the cursor past the last record's
key, every continuing step strictly increases the cursor, and a fuel of
`endMs + 2 - cursor` makes every loop terminate with a result — the loop
can never stall re-requesting the same window. -/
theorem C4_cursor_liveness {R : Type} [DecidableEq R]
    (kf kfKey kfTime : R → Int) (enc : R → String)
    (fetchC : Int → List R) (fetchT : Int → Int → Option Int → List R)
    (fetchW : Int → Int → List R)
    (intervalMs windowMs adv endMs cursor : Int)
    (s : CandleRunState R) (sT : TradeRunState R) (w : DatasetWriter R)
    (s' : CandleRunState R) (sT' : TradeRunState R) (w' : DatasetWriter R)
    (c' : Int) (r : R) (rest : List R) (fuel : ℕ)
    (hiv : 0 < intervalMs) (hwin : 0 ≤ windowMs) (hadv : 0 < adv)
    (hc : cursor ≤ endMs) :
    (fetchC cursor ≠ [] →
      (fetchC cursor).filter
        (fun x => decide (cursor ≤ kf x) && decide (kf x ≤ endMs)) = [] →
      runCandlesBody kf enc fetchC intervalMs endMs s cursor =
        .next { s with requests := s.requests ++ [cursor] }
          (cursor + intervalMs))
    ∧ ((fetchC cursor).filter
        (fun x => decide (cursor ≤ kf x) && decide (kf x ≤ endMs)) =
          r :: rest →
      kf ((r :: rest).getLast (by simp)) + intervalMs ≤ endMs →
      runCandlesBody kf enc fetchC intervalMs endMs s cursor =
        .next ⟨DatasetWriter.flush kf enc
            (DatasetWriter.upsertMany kf s.writer (r :: rest)).1,
          s.requests ++ [cursor]⟩
          (kf ((r :: rest).getLast (by simp)) + intervalMs))
    ∧ (runCandlesBody kf enc fetchC intervalMs endMs s cursor = .next s' c' →
        cursor < c')
    ∧ (endMs + 2 - cursor ≤ (fuel : Int) →
        (runCandlesLoop kf enc fetchC intervalMs endMs fuel s cursor).isSome)
    ∧ (fetchT cursor (min (cursor + tradeWindowMs) endMs) sT.fromId ≠ [] →
      (fetchT cursor (min (cursor + tradeWindowMs) endMs) sT.fromId).filter
        (fun x => decide (cursor ≤ kfTime x) &&
          decide (kfTime x ≤ endMs)) = [] →
      runTradesBody kfKey kfTime enc fetchT endMs sT cursor =
        .next sT (min (cursor + tradeWindowMs) endMs + 1))
    ∧ (runTradesBody kfKey kfTime enc fetchT endMs sT cursor = .next sT' c' →
        cursor < c')
    ∧ (endMs + 2 - cursor ≤ (fuel : Int) →
        (runTradesLoop kfKey kfTime enc fetchT endMs fuel sT cursor).isSome)
    ∧ (fetchW cursor (min (cursor + windowMs) endMs) ≠ [] →
      (fetchW cursor (min (cursor + windowMs) endMs)).filter
        (fun x => decide (cursor ≤ kf x) && decide (kf x ≤ endMs)) = [] →
      runWindowedBody kf enc fetchW windowMs adv endMs w cursor =
        .next w (min (cursor + windowMs) endMs + adv))
    ∧ (runWindowedBody kf enc fetchW windowMs adv endMs w cursor =
        .next w' c' → cursor < c')
    ∧ (endMs + 2 - cursor ≤ (fuel : Int) →
        (runWindowedLoop kf enc fetchW windowMs adv endMs fuel w
          cursor).isSome) := by
  refine ⟨?_, ?_, ?_, ?_, ?_, ?_, ?_, ?_, ?_, ?_⟩
  · intro hne hfil
    have hb : (fetchC cursor).isEmpty = false := by
      cases hfc : fetchC cursor with
      | nil => exact absurd hfc hne
      | cons a as => rfl
    unfold runCandlesBody
    simp only [hb, Bool.false_eq_true, if_false, hfil]
  · intro hfil hle
    have hne : fetchC cursor ≠ [] := by
      intro h0
      rw [h0] at hfil
      simp at hfil
    have hb : (fetchC cursor).isEmpty = false := by
      cases hfc : fetchC cursor with
      | nil => exact absurd hfc hne
      | cons a as => rfl
    unfold runCandlesBody
    simp only [hb, Bool.false_eq_true, if_false, hfil]
    rw [if_neg (not_lt.mpr hle)]
  · intro h
    have := ((runCandlesBody_spec kf enc fetchC intervalMs endMs s cursor).2
      s' c' h).2.1
    omega
  · exact runCandlesLoop_isSome kf enc fetchC intervalMs endMs hiv fuel s cursor
  · intro hne hfil
    have hb : (fetchT cursor (min (cursor + tradeWindowMs) endMs)
        sT.fromId).isEmpty = false := by
      cases hfc : fetchT cursor (min (cursor + tradeWindowMs) endMs)
          sT.fromId with
      | nil => exact absurd hfc hne
      | cons a as => rfl
    unfold runTradesBody
    simp only [hb, Bool.false_eq_true, if_false, hfil]
  · exact fun h =>
      runTradesBody_next_lt kfKey kfTime enc fetchT endMs sT cursor sT' c' hc h
  · exact runTradesLoop_isSome kfKey kfTime enc fetchT endMs fuel sT cursor
  · intro hne hfil
    have hb : (fetchW cursor (min (cursor + windowMs) endMs)).isEmpty =
        false := by
      cases hfc : fetchW cursor (min (cursor + windowMs) endMs) with
      | nil => exact absurd hfc hne
      | cons a as => rfl
    unfold runWindowedBody
    simp only [hb, Bool.false_eq_true, if_false, hfil]
  · exact fun h => runWindowedBody_next_lt kf enc fetchW windowMs adv endMs
      w cursor w' c' hc hwin hadv h
  · exact runWindowedLoop_isSome kf enc fetchW windowMs adv endMs hwin hadv
      fuel w cursor

/-- Witness for C3 at a concrete input: over a store holding key 0 a
resumed run with configured window [0, 1] only ever requests start times
at least `max(0, 0 + 1) = 1`. -/
theorem C3_resume_requests_and_bounds_witness :
    max (0 : Int) (0 + 1) ≤ 1 :=
  (C3_resume_requests_and_bounds (fun x : Int => x) toString (fun _ => [])
      1 0 1 0 resumeWriter 3 resumeOut (by decide) (by decide)
      (by decide)).2.1 1 (by decide)

/-- Witness for C4 at a concrete input: a batch whose only row lies
outside the window is filtered away and the candle cursor advances by one
interval with nothing upserted. -/
theorem C4_cursor_liveness_witness :
    runCandlesBody (fun x : Int => x) toString (fun _ => [20]) 1 10
      ⟨sampleWriter, []⟩ 0 =
      .next ⟨sampleWriter, [0]⟩ 1 :=
  (C4_cursor_liveness (fun x : Int => x) (fun x => x) (fun x => x) toString
      (fun _ => [20]) (fun _ _ _ => []) (fun _ _ => []) 1 0 1 10 0
      ⟨sampleWriter, []⟩ ⟨sampleWriter, Option.none⟩ sampleWriter
      ⟨sampleWriter, []⟩ ⟨sampleWriter, Option.none⟩ sampleWriter 0 0 [] 0
      (by decide) (by decide) (by decide) (by decide)).1
    (by decide) (by decide)

/-- Witness for C9 at a concrete input: with one stored candle at
open_time 10 the next poll requests start_time 11. -/
theorem C9_candle_poll_cadence_witness :
    (ingestCandlesOnce (some 10) (fun _ => ([] : List Unit))).1 = some 11 :=
  (C9_candle_poll_cadence (some 10) 10 (fun _ => ([] : List Unit))
      ⟨2, 2, 120, 0⟩ 30).2.1 rfl

end BotCrypto
